import Mathlib

/-!
Verification of the core of the MLOPS-Newtral simple RAG notebook
(`simple_rag.ipynb`): the dense-vector retrieval (`IR.search`), the
citation assembly of `ChatQA.__call__`, the embedding-cache selection,
and the text splitter (`utils.split_text`, whose source is not in the
repository and is therefore modelled from the specification).

Embeddings and scores are modelled as rational vectors (`List ℚ`);
metadata dictionaries as a record with the two fields the ingestion
cell writes (`claimReviewed`, `url`); Python's fallible list indexing
as `Option`; Python slice semantics `xs[:k]` (including negative `k`)
as `pySliceTo`.  `scores.squeeze()` removes every dimension of size 1,
so a single-chunk index collapses the score row to a 0-dim tensor and
the subsequent `argsort()[:k]` slice raises `IndexError`; the model
keeps this error path (`none`).  `torch.argsort` of the negated score
vector is modelled as a descending argsort; torch's default sort
(`stable=False`) leaves the order of equal scores unspecified, so the
model's fixed tie order (by insertion index) is one admissible
refinement, and no theorem below depends on which tie order is chosen.
-/

namespace Newtral

/-- One metadata record, as built in the ingestion cell:
`{"claimReviewed": ..., "url": ...}`. -/
structure Metadata where
  claimReviewed : String
  url : String
  deriving DecidableEq

/-- One chunk record `{"text": chunk, "metadata": metadata}`. -/
structure Doc where
  text : String
  metadata : Metadata
  deriving DecidableEq

instance : Inhabited Doc := ⟨⟨"", ⟨"", ""⟩⟩⟩

/-- One search result `{**self.documents[i], "score": scores[i].item()}`. -/
structure SearchResult where
  text : String
  metadata : Metadata
  score : ℚ
  deriving DecidableEq

/-- Dot product of two vectors, the relevance score
(`util.dot_score` against one stored row). -/
def dot (u v : List ℚ) : ℚ := (List.zipWith (fun a b => a * b) u v).sum

/-- The score row `util.dot_score(query_embedding, self.vectorstore).squeeze()`:
the dot product of the query embedding against every stored row. -/
def scoresOf (q : List ℚ) (store : List (List ℚ)) : List ℚ := store.map (dot q)

/-- The score of index `i` in a score row (`scores[i]`, in-bounds reads only). -/
def scoreAt (s : List ℚ) (i : Nat) : ℚ := s.getD i 0

/-- A total order refining "strictly larger score first", used to model
`(-scores).argsort()`.  torch's default sort does not specify the relative
order of equal scores; this relation fixes one admissible refinement
(equal scores by index) so that the argsort is a function.  No theorem
below depends on the tie order. -/
def rankRel (s : List ℚ) (i j : Nat) : Prop :=
  scoreAt s j < scoreAt s i ∨ (scoreAt s i = scoreAt s j ∧ i ≤ j)

instance rankRelDecidable (s : List ℚ) : DecidableRel (rankRel s) := fun i j =>
  inferInstanceAs (Decidable (scoreAt s j < scoreAt s i ∨ (scoreAt s i = scoreAt s j ∧ i ≤ j)))

instance rankRelTotal (s : List ℚ) : IsTotal Nat (rankRel s) where
  total i j := by
    rcases lt_trichotomy (scoreAt s i) (scoreAt s j) with h | h | h
    · exact Or.inr (Or.inl h)
    · rcases Nat.le_total i j with hij | hij
      · exact Or.inl (Or.inr ⟨h, hij⟩)
      · exact Or.inr (Or.inr ⟨h.symm, hij⟩)
    · exact Or.inl (Or.inl h)

instance rankRelTrans (s : List ℚ) : IsTrans Nat (rankRel s) where
  trans a b c hab hbc := by
    rcases hab with h1 | ⟨e1, l1⟩ <;> rcases hbc with h2 | ⟨e2, l2⟩
    · exact Or.inl (h2.trans h1)
    · exact Or.inl (by rw [← e2]; exact h1)
    · exact Or.inl (by rw [e1]; exact h2)
    · exact Or.inr ⟨e1.trans e2, l1.trans l2⟩

/-- `(-scores).argsort()`: every index `0 .. n-1`, ranked by descending
score (ties resolved by `rankRel`'s refinement, which the source leaves
unspecified). -/
def argsortDesc (s : List ℚ) : List Nat :=
  List.insertionSort (rankRel s) (List.range s.length)

/-- Python slice `xs[:k]` for an arbitrary integer bound `k`:
a non-negative `k` keeps the first `k` elements, a negative `k`
drops the last `|k|`. -/
def pySliceTo (k : Int) (l : List α) : List α :=
  if k < 0 then l.take ((l.length : Int) + k).toNat else l.take k.toNat

/-- `topk = (-scores).argsort()[:k]`. -/
def topkIdx (s : List ℚ) (k : Int) : List Nat := pySliceTo k (argsortDesc s)

/-- The result row built for index `i`: the full stored chunk record with the
score attached (used to describe the output of a successful search). -/
def resultAt (docs : List Doc) (s : List ℚ) (i : Nat) : SearchResult :=
  ⟨(docs.getD i default).text, (docs.getD i default).metadata, s.getD i 0⟩

/-- The list comprehension
`[{**self.documents[i], "score": scores[i].item()} for i in topk]`:
each position is looked up in the documents list and in the score row;
an out-of-range lookup is Python's `IndexError`, modelled as `none`. -/
def lookupResults (docs : List Doc) (s : List ℚ) : List Nat → Option (List SearchResult)
  | [] => some []
  | i :: t =>
    match docs[i]?, s[i]?, lookupResults docs s t with
    | some d, some sc, some rest => some (⟨d.text, d.metadata, sc⟩ :: rest)
    | _, _, _ => none

/-- The shape of `scores.squeeze()` applied to the 1×n score matrix of
`util.dot_score`: `squeeze` removes every dimension of size 1, so with
exactly one stored chunk the score row collapses to a 0-dim scalar; any
other length (the empty row included) stays a 1-dim vector. -/
inductive SqueezedScores where
  | scalar (x : ℚ)
  | vector (s : List ℚ)
  deriving DecidableEq

/-- `scores.squeeze()` on the score row. -/
def squeezeRow : List ℚ → SqueezedScores
  | [x] => .scalar x
  | s => .vector s

/-- `IR.search` over an index holding `docs` and the embedding matrix `store`,
for a query whose embedding is `q` and a requested `k` (the query string and
the embedding model are external; the search is parametrised by the query's
embedding vector).  When `squeeze` has collapsed the scores to a 0-dim
scalar, `(-scores).argsort()[:k]` raises `IndexError` (slicing a 0-dim
tensor), modelled as `none`. -/
def irSearch (docs : List Doc) (store : List (List ℚ)) (q : List ℚ) (k : Int) :
    Option (List SearchResult) :=
  match squeezeRow (scoresOf q store) with
  | .scalar _ => none
  | .vector s => lookupResults docs s (topkIdx s k)

/-- The vectorstore cell: when the embeddings file exists its contents are
used as-is, otherwise the embeddings are computed from the current chunks. -/
def loadOrBuild (cached : Option (List (List ℚ))) (computed : List (List ℚ)) :
    List (List ℚ) :=
  match cached with
  | some m => m
  | none => computed

/-- `list(dict.fromkeys(urls))`: drop duplicates, keeping the first
occurrence of each element, preserving order. -/
def dedupFirst : List String → List String
  | [] => []
  | u :: rest => u :: dedupFirst (rest.filter (fun v => v != u))
termination_by l => l.length
decreasing_by
  simpa using Nat.lt_succ_of_le (List.length_filter_le _ rest)

/-- The citation URLs of `ChatQA.__call__`: the `url` metadata field of each
retrieved document, deduplicated in first-seen order. -/
def citationUrls (results : List SearchResult) : List String :=
  dedupFirst (results.map (fun r => r.metadata.url))

/-- The citation URLs produced for one answered question: `ChatQA.__call__`
retrieves with the default `k = 4` and deduplicates the source URLs. -/
def chatCitations (docs : List Doc) (store : List (List ℚ)) (q : List ℚ) :
    List String :=
  citationUrls ((irSearch docs store q 4).getD [])

/-- Modelled from the spec: joining buffered pieces with the active
separator (splitter step 2, "joined by `sep`"); `utils.split_text` is
imported by the notebook but its source file is not in the repository. -/
def joinSep (sep : String) : List String → String
  | [] => ""
  | [p] => p
  | p :: ps => p ++ sep ++ joinSep sep ps

/-- A chunk that is empty or whitespace-only (splitter step 5 drops these). -/
def isBlank (s : String) : Bool := s.data.all Char.isWhitespace

/-- Modelled from the spec: splitting a character list on a non-empty
separator occurrence by occurrence (splitter step 1, "split `text` on
`sep`"); `fuel` bounds the recursion and is given as the text length. -/
def splitStep (sep : List Char) : Nat → List Char → List Char → List (List Char)
  | _, [], acc => [acc.reverse]
  | 0, rest, acc => [acc.reverse ++ rest]
  | fuel + 1, c :: rest, acc =>
    if sep.isPrefixOf (c :: rest) then
      acc.reverse :: splitStep sep fuel ((c :: rest).drop sep.length) []
    else
      splitStep sep fuel rest (c :: acc)

/-- Modelled from the spec: splitter step 1 — split on the separator, and
when the separator is the empty string split into individual characters. -/
def splitPieces (text sep : String) : List String :=
  if sep = "" then text.data.map (fun c => String.mk [c])
  else (splitStep sep.data (text.data.length + 1) text.data []).map String.mk

/-- Modelled from the spec: splitter step 3 — the seed of a fresh buffer is
the longest trailing run of whole pieces of the previous buffer whose joined
length is at most `chunk_overlap` and which still admits the next piece `p`
within `chunk_size`. -/
def overlapSeed (sep : String) (co cs : Nat) (p : String) : List String → List String
  | [] => []
  | b :: t =>
    if (joinSep sep (b :: t)).length ≤ co ∧
        (joinSep sep ((b :: t) ++ [p])).length ≤ cs then
      b :: t
    else overlapSeed sep co cs p t

/-- Modelled from the spec: splitter step 2 — emit the current buffer as one
(non-hard-cut) chunk when it is non-empty. -/
def emitBuffer (sep : String) (buffer : List String) : List (String × Bool) :=
  if joinSep sep buffer = "" then [] else [(joinSep sep buffer, false)]

/-- Modelled from the spec: splitter steps 2–4 — greedily pack pieces into a
buffer joined by `sep`; a piece longer than `chunk_size` is handed to
`recurse` (the cascade on the remaining separators); when adding a piece
would push the buffer over `chunk_size`, emit the buffer and start a new one
seeded per step 3.  The `Bool` flags a hard-cut chunk. -/
def packLoop (cs co : Nat) (sep : String) (recurse : String → List (String × Bool)) :
    List String → List String → List (String × Bool)
  | buffer, [] => emitBuffer sep buffer
  | buffer, p :: ps =>
    if cs < p.length then
      emitBuffer sep buffer ++ recurse p ++ packLoop cs co sep recurse [] ps
    else if cs < (joinSep sep (buffer ++ [p])).length then
      emitBuffer sep buffer ++
        packLoop cs co sep recurse (overlapSeed sep co cs p buffer ++ [p]) ps
    else
      packLoop cs co sep recurse (buffer ++ [p]) ps

/-- Modelled from the spec: the recursive separator cascade — take the first
separator, split and pack; with no separators left the text is emitted
verbatim, flagged as a hard cut when it exceeds `chunk_size` (step 4). -/
def splitRec (cs co : Nat) : List String → String → List (String × Bool)
  | [], text => if text.length ≤ cs then [(text, false)] else [(text, true)]
  | sep :: rest, text => packLoop cs co sep (splitRec cs co rest) [] (splitPieces text sep)

/-- Modelled from the spec: `split_text` with each chunk paired with its
hard-cut flag; step 5 drops empty and whitespace-only chunks. -/
def split_text_flagged (text : String) (cs co : Nat) (seps : List String) :
    List (String × Bool) :=
  (splitRec cs co seps text).filter (fun p => !(isBlank p.1))

/-- Modelled from the spec: `split_text(text, chunk_size, chunk_overlap,
separators)` as the notebook calls it — an ordered sequence of plain string
chunks (the hard-cut flag is not part of the returned value). -/
def split_text (text : String) (cs co : Nat) (seps : List String) : List String :=
  (split_text_flagged text cs co seps).map Prod.fst

/-- A three-chunk corpus used for the concrete scenarios. -/
def exDocs : List Doc :=
  [⟨"c0", ⟨"k0", "u0"⟩⟩, ⟨"c1", ⟨"k1", "u1"⟩⟩, ⟨"c2", ⟨"k2", "u2"⟩⟩]

/-- The embeddings `[1,0], [0,1], [0.5,0.5]` of the tie-break scenario. -/
def exStore : List (List ℚ) := [[1, 0], [0, 1], [1/2, 1/2]]

/-- The query embedding `[1,1]` of the tie-break scenario. -/
def exQuery : List ℚ := [1, 1]

/-- A three-chunk corpus with pairwise distinct scores against `exQueryB`,
so that concrete rankings do not depend on any tie order. -/
def exDocsB : List Doc :=
  [⟨"b0", ⟨"kb0", "ub0"⟩⟩, ⟨"b1", ⟨"kb1", "ub1"⟩⟩, ⟨"b2", ⟨"kb2", "ub2"⟩⟩]

/-- Embeddings scoring `3, 2, 1` against `exQueryB`. -/
def exStoreB : List (List ℚ) := [[3], [2], [1]]

/-- Query embedding for the distinct-score corpus. -/
def exQueryB : List ℚ := [1]

/-- Two documents only — fewer documents than `exStoreB` has rows, the
stale-cache misalignment of C10. -/
def exDocsPair : List Doc := [⟨"b0", ⟨"kb0", "ub0"⟩⟩, ⟨"b1", ⟨"kb1", "ub1"⟩⟩]

/-- A one-chunk index: its squeezed score row is a 0-dim scalar. -/
def exDocSingle : List Doc := [⟨"s0", ⟨"ks0", "us0"⟩⟩]

/-- The 1×D embedding matrix of the one-chunk index. -/
def exStoreSingle : List (List ℚ) := [[1]]

/-! ### Helper lemmas about the retrieval model -/

theorem scoresOf_length (q : List ℚ) (store : List (List ℚ)) :
    (scoresOf q store).length = store.length := by
  simp [scoresOf]

theorem argsortDesc_perm (s : List ℚ) : List.Perm (argsortDesc s) (List.range s.length) :=
  List.perm_insertionSort _ _

theorem argsortDesc_length (s : List ℚ) : (argsortDesc s).length = s.length := by
  simpa using (argsortDesc_perm s).length_eq

theorem argsortDesc_sorted (s : List ℚ) :
    List.Pairwise (rankRel s) (argsortDesc s) :=
  List.sorted_insertionSort (rankRel s) _

theorem mem_argsortDesc {s : List ℚ} {i : Nat} (h : i ∈ argsortDesc s) :
    i < s.length := by
  simpa using (argsortDesc_perm s).mem_iff.mp h

theorem pySliceTo_sublist (k : Int) (l : List α) : List.Sublist (pySliceTo k l) l := by
  unfold pySliceTo
  split <;> exact List.take_sublist _ _

theorem pySliceTo_length (k : Int) (l : List α) :
    (pySliceTo k l).length =
      min (if k < 0 then ((l.length : Int) + k).toNat else k.toNat) l.length := by
  unfold pySliceTo
  split <;> simp_all

theorem topkIdx_sublist (s : List ℚ) (k : Int) : List.Sublist (topkIdx s k) (argsortDesc s) :=
  pySliceTo_sublist _ _

theorem mem_topkIdx {s : List ℚ} {k : Int} {i : Nat} (h : i ∈ topkIdx s k) :
    i < s.length :=
  mem_argsortDesc ((topkIdx_sublist s k).subset h)

theorem topkIdx_pairwise (s : List ℚ) (k : Int) :
    List.Pairwise (rankRel s) (topkIdx s k) :=
  List.Pairwise.sublist (topkIdx_sublist s k) (argsortDesc_sorted s)

theorem topkIdx_length (s : List ℚ) (k : Int) :
    (topkIdx s k).length =
      min (if k < 0 then ((s.length : Int) + k).toNat else k.toNat) s.length := by
  rw [topkIdx, pySliceTo_length, argsortDesc_length]

theorem squeezeRow_eq_vector {s : List ℚ} (h : s.length ≠ 1) :
    squeezeRow s = .vector s := by
  cases s with
  | nil => rfl
  | cons a t =>
    cases t with
    | nil => simp at h
    | cons b t' => rfl

theorem lookupResults_eq (docs : List Doc) (s : List ℚ) :
    ∀ idx : List Nat, (∀ i ∈ idx, i < docs.length ∧ i < s.length) →
      lookupResults docs s idx = some (idx.map (resultAt docs s)) := by
  intro idx
  induction idx with
  | nil => intro _; rfl
  | cons i t ih =>
    intro h
    have hi := h i (List.mem_cons_self i t)
    have hrest := ih fun j hj => h j (List.mem_cons_of_mem _ hj)
    have hd : docs[i]? = some (docs.getD i default) := by
      rw [List.getElem?_eq_getElem hi.1, List.getD_eq_getElem _ _ hi.1]
    have hs : s[i]? = some (s.getD i 0) := by
      rw [List.getElem?_eq_getElem hi.2, List.getD_eq_getElem _ _ hi.2]
    rw [lookupResults, hd, hs, hrest]
    rfl

/-- Away from the single-chunk squeeze collapse, a search over an index
whose embedding matrix has no more rows than there are documents succeeds
and returns the ranked rows. -/
theorem irSearch_eq (docs : List Doc) (store : List (List ℚ)) (q : List ℚ)
    (k : Int) (hlen : store.length ≤ docs.length) (hone : store.length ≠ 1) :
    irSearch docs store q k =
      some ((topkIdx (scoresOf q store) k).map (resultAt docs (scoresOf q store))) := by
  unfold irSearch
  rw [squeezeRow_eq_vector (by rwa [scoresOf_length])]
  refine lookupResults_eq docs _ _ fun i hi => ?_
  have hs := mem_topkIdx hi
  rw [scoresOf_length] at hs
  exact ⟨lt_of_lt_of_le hs hlen, by rwa [scoresOf_length]⟩

/-- A one-row embedding matrix collapses under `squeeze` to a 0-dim scalar
and the search errors out, for every documents list, query and `k`. -/
theorem irSearch_single_row (docs : List Doc) (x : List ℚ) (q : List ℚ)
    (k : Int) : irSearch docs [x] q k = none :=
  rfl

theorem results_sorted (docs : List Doc) (s : List ℚ) (k : Int) :
    List.Pairwise (fun a b : SearchResult => b.score ≤ a.score)
      ((topkIdx s k).map (resultAt docs s)) := by
  refine List.Pairwise.map _ ?_ (topkIdx_pairwise s k)
  intro i j hij
  rcases hij with h | ⟨h, -⟩
  · exact le_of_lt h
  · exact le_of_eq h.symm

/-! ### Helper lemmas about citation deduplication -/

theorem mem_dedupFirst : ∀ (l : List String) (u : String), u ∈ dedupFirst l ↔ u ∈ l := by
  intro l
  induction l using dedupFirst.induct with
  | case1 => simp [dedupFirst]
  | case2 v rest ih =>
    intro u
    rw [dedupFirst]
    by_cases hv : u = v
    · simp [hv]
    · simp [hv, ih, List.mem_filter]

theorem dedupFirst_nodup : ∀ l : List String, (dedupFirst l).Nodup := by
  intro l
  induction l using dedupFirst.induct with
  | case1 => simp [dedupFirst]
  | case2 v rest ih =>
    rw [dedupFirst]
    refine List.nodup_cons.mpr ⟨?_, ih⟩
    rw [mem_dedupFirst]
    simp [List.mem_filter]

theorem indexOf_filter_lt (a : String) :
    ∀ (l : List String) (x y : String),
      x ∈ l.filter (fun v => v != a) → y ∈ l.filter (fun v => v != a) →
      (l.filter (fun v => v != a)).indexOf x < (l.filter (fun v => v != a)).indexOf y →
      l.indexOf x < l.indexOf y := by
  intro l
  induction l with
  | nil => intro x y hx _ _; simp at hx
  | cons b t ih =>
    intro x y hx hy hlt
    by_cases hba : b = a
    · rw [hba, List.filter_cons_of_neg (by simp)] at hx hy hlt
      have hxa : x ≠ a := by simpa using (List.mem_filter.mp hx).2
      have hya : y ≠ a := by simpa using (List.mem_filter.mp hy).2
      rw [hba, List.indexOf_cons_ne t (fun h => hxa h.symm),
        List.indexOf_cons_ne t (fun h => hya h.symm)]
      exact Nat.succ_lt_succ (ih x y hx hy hlt)
    · rw [List.filter_cons_of_pos (by simpa using hba)] at hx hy hlt
      by_cases hxb : x = b
      · subst hxb
        have hyb : y ≠ x := by
          intro h
          rw [h, List.indexOf_cons_self] at hlt
          exact Nat.not_lt_zero _ hlt
        rw [List.indexOf_cons_self, List.indexOf_cons_ne t (fun h => hyb h.symm)]
        exact Nat.succ_pos _
      · have hxt : x ∈ t.filter (fun v => v != a) := by
          rcases List.mem_cons.mp hx with h | h
          · exact absurd h hxb
          · exact h
        rw [List.indexOf_cons_ne _ (fun h => hxb h.symm)] at hlt
        by_cases hyb : y = b
        · rw [hyb, List.indexOf_cons_self] at hlt
          exact absurd hlt (Nat.not_lt_zero _)
        · have hyt : y ∈ t.filter (fun v => v != a) := by
            rcases List.mem_cons.mp hy with h | h
            · exact absurd h hyb
            · exact h
          rw [List.indexOf_cons_ne _ (fun h => hyb h.symm)] at hlt
          have := ih x y hxt hyt (Nat.lt_of_succ_lt_succ hlt)
          rw [List.indexOf_cons_ne t (fun h => hxb h.symm),
            List.indexOf_cons_ne t (fun h => hyb h.symm)]
          exact Nat.succ_lt_succ this

theorem dedupFirst_pairwise_indexOf :
    ∀ l : List String,
      List.Pairwise (fun a b => l.indexOf a < l.indexOf b) (dedupFirst l) := by
  intro l
  induction l using dedupFirst.induct with
  | case1 => simp [dedupFirst]
  | case2 v rest ih =>
    rw [dedupFirst]
    refine List.pairwise_cons.mpr ⟨?_, ?_⟩
    · intro b hb
      have hbf := (mem_dedupFirst _ _).mp hb
      have hbv : b ≠ v := by simpa using (List.mem_filter.mp hbf).2
      rw [List.indexOf_cons_self, List.indexOf_cons_ne rest (fun h => hbv h.symm)]
      exact Nat.succ_pos _
    · refine ih.imp_of_mem ?_
      intro a b ha hb hr
      have haf := (mem_dedupFirst _ _).mp ha
      have hbf := (mem_dedupFirst _ _).mp hb
      have hav : a ≠ v := by simpa using (List.mem_filter.mp haf).2
      have hbv : b ≠ v := by simpa using (List.mem_filter.mp hbf).2
      have := indexOf_filter_lt v rest a b haf hbf hr
      rw [List.indexOf_cons_ne rest (fun h => hav h.symm),
        List.indexOf_cons_ne rest (fun h => hbv h.symm)]
      exact Nat.succ_lt_succ this

/-! ### Helper lemmas about the splitter model -/

theorem emitBuffer_mem {sep : String} {buffer : List String} {c : String} {fl : Bool}
    (h : (c, fl) ∈ emitBuffer sep buffer) : c = joinSep sep buffer ∧ fl = false := by
  unfold emitBuffer at h
  split at h
  · simp at h
  · simpa using h

theorem overlapSeed_cases (sep : String) (co cs : Nat) (p : String) :
    ∀ buffer : List String,
      overlapSeed sep co cs p buffer = [] ∨
      (joinSep sep (overlapSeed sep co cs p buffer ++ [p])).length ≤ cs := by
  intro buffer
  induction buffer with
  | nil => exact Or.inl rfl
  | cons b t ih =>
    rw [overlapSeed]
    split
    · next hcond => exact Or.inr hcond.2
    · exact ih

theorem packLoop_bound (cs co : Nat) (sep : String)
    (recurse : String → List (String × Bool))
    (hrec : ∀ t c, (c, false) ∈ recurse t → c.length ≤ cs) :
    ∀ (pieces buffer : List String), (joinSep sep buffer).length ≤ cs →
      ∀ c : String, (c, false) ∈ packLoop cs co sep recurse buffer pieces →
        c.length ≤ cs := by
  intro pieces
  induction pieces with
  | nil =>
    intro buffer hbuf c hc
    rw [packLoop] at hc
    obtain ⟨he, -⟩ := emitBuffer_mem hc
    exact he ▸ hbuf
  | cons p ps ih =>
    intro buffer hbuf c hc
    rw [packLoop] at hc
    split at hc
    · rcases List.mem_append.mp hc with h | h
      · rcases List.mem_append.mp h with h1 | h1
        · exact (emitBuffer_mem h1).1 ▸ hbuf
        · exact hrec p c h1
      · exact ih [] (by simp [joinSep]) c h
    · next hp =>
      have hple : p.length ≤ cs := Nat.le_of_not_lt hp
      split at hc
      · rcases List.mem_append.mp hc with h | h
        · exact (emitBuffer_mem h).1 ▸ hbuf
        · refine ih _ ?_ c h
          rcases overlapSeed_cases sep co cs p buffer with hseed | hseed
          · rw [hseed]
            simpa [joinSep] using hple
          · exact hseed
      · next hfits => exact ih _ (Nat.le_of_not_lt hfits) c hc

theorem splitRec_bound (cs co : Nat) :
    ∀ (seps : List String) (text : String) (c : String),
      (c, false) ∈ splitRec cs co seps text → c.length ≤ cs := by
  intro seps
  induction seps with
  | nil =>
    intro text c hc
    rw [splitRec] at hc
    split at hc
    · next h =>
      simp only [List.mem_singleton, Prod.mk.injEq] at hc
      exact hc.1 ▸ h
    · simp at hc
  | cons sep rest ih =>
    intro text c hc
    rw [splitRec] at hc
    exact packLoop_bound cs co sep _ (fun t c' h => ih t c' h) _ _
      (by simp [joinSep]) c hc

/-- The scores of the distinct-score corpus: `3, 2, 1`. -/
theorem exScoresB : scoresOf exQueryB exStoreB = [3, 2, 1] := by
  simp [scoresOf, dot, exStoreB, exQueryB]

/-! ### The claims -/

/-- C2: for every built index (embedding rows aligned with the documents),
every query and every `k > 0`, whatever sequence search returns is sorted by
non-increasing score (adjacent pairs in order; when the search errors out,
no sequence is returned and the returned-sequence reading is vacuous). -/
theorem search_sorted_by_score (docs : List Doc) (store : List (List ℚ))
    (q : List ℚ) (k : Int) (hlen : store.length = docs.length) (hk : 0 < k) :
    List.Chain' (fun a b : SearchResult => b.score ≤ a.score)
      ((irSearch docs store q k).getD []) := by
  by_cases hone : store.length = 1
  · obtain ⟨x, rfl⟩ := List.length_eq_one.mp hone
    rw [irSearch_single_row]
    simp
  · rw [irSearch_eq docs store q k (le_of_eq hlen) hone]
    simpa using (results_sorted docs (scoresOf q store) k).chain'

theorem search_sorted_by_score_witness :
    List.Chain' (fun a b : SearchResult => b.score ≤ a.score)
      ((irSearch exDocsB exStoreB exQueryB 2).getD []) :=
  search_sorted_by_score exDocsB exStoreB exQueryB 2 rfl (by decide)

/-- C3 (code bug, failing-input evaluation): on a built index with exactly
one stored chunk the search does not return `min k 1 = 1` results — the 1×1
score matrix squeezes to a 0-dim tensor and the `argsort()[:k]` slice raises
`IndexError`, modelled as `none`. -/
theorem search_single_chunk_raises :
    irSearch exDocSingle exStoreSingle [1] 1 = none ∧
    min (1 : Int).toNat exDocSingle.length = 1 :=
  ⟨irSearch_single_row _ _ _ _, by decide⟩

/-- C4: searching an index with no chunks (empty documents list and empty
embedding store) returns the empty sequence, for every query and `k > 0`. -/
theorem search_empty_index (q : List ℚ) (k : Int) (hk : 0 < k) :
    irSearch [] [] q k = some [] := by
  simp [irSearch, squeezeRow, topkIdx, argsortDesc, scoresOf, pySliceTo,
    lookupResults]

theorem search_empty_index_witness : irSearch [] [] [1] 1 = some [] :=
  search_empty_index [1] 1 (by decide)

/-- C5 (counterexample): a non-positive `k` is not rejected — on the
three-chunk corpus with pairwise distinct scores `3, 2, 1` (no tie order
involved), `k = 0` returns the empty sequence and `k = -1` returns the two
highest-scored chunks, so search yields a sequence instead of raising an
`InvalidConfiguration` error. -/
theorem search_nonpositive_k_counterexample :
    irSearch exDocsB exStoreB exQueryB 0 = some [] ∧
    irSearch exDocsB exStoreB exQueryB (-1) =
      some [⟨"b0", ⟨"kb0", "ub0"⟩, 3⟩, ⟨"b1", ⟨"kb1", "ub1"⟩, 2⟩] := by
  constructor
  · simp only [irSearch, exScoresB]
    decide
  · simp only [irSearch, exScoresB]
    decide

/-- C5 (amended): search performs no validation of `k` and has no error path
keyed on `k`: on any built index whose squeezed score row is still a vector
(`n ≠ 1`), Python slice semantics make `k = 0` return the empty sequence and
a negative `k` return all but the last `|k|` ranked entries, with no error
raised; the only error reachable at `n = 1` is the squeeze `IndexError`,
which is raised for every `k` alike, not a rejection of non-positive `k`. -/
theorem search_nonpositive_k_no_error (docs : List Doc) (store : List (List ℚ))
    (q : List ℚ) (k : Int) (hlen : store.length = docs.length)
    (hone : store.length ≠ 1) (hk : k ≤ 0) :
    ∃ rs, irSearch docs store q k = some rs ∧
      rs.length = if k = 0 then 0 else ((docs.length : Int) + k).toNat := by
  refine ⟨_, irSearch_eq docs store q k (le_of_eq hlen) hone, ?_⟩
  rw [List.length_map, topkIdx_length, scoresOf_length, hlen]
  rcases eq_or_lt_of_le hk with h0 | hneg
  · subst h0
    simp
  · rw [if_pos hneg, if_neg (by omega)]
    omega

theorem search_nonpositive_k_no_error_witness :
    ∃ rs, irSearch exDocsB exStoreB exQueryB (-2) = some rs ∧
      rs.length = if (-2 : Int) = 0 then 0 else ((exDocsB.length : Int) + (-2)).toNat :=
  search_nonpositive_k_no_error exDocsB exStoreB exQueryB (-2) rfl (by decide)
    (by decide)

/-- C6: every result the search returns carries the full stored chunk record
(text and metadata) plus a score equal to the dot product of the query
embedding with the embedding stored for that chunk (stated over the returned
sequence; when the search errors out nothing is returned and the property is
vacuous). -/
theorem search_result_score_is_dot (docs : List Doc) (store : List (List ℚ))
    (q : List ℚ) (k : Int) (hlen : store.length = docs.length) (hk : 0 < k) :
    List.Forall
      (fun r => ∃ i, ∃ (hd : i < docs.length) (he : i < store.length),
        r.text = (docs.get ⟨i, hd⟩).text ∧
        r.metadata = (docs.get ⟨i, hd⟩).metadata ∧
        r.score = dot q (store.get ⟨i, he⟩))
      ((irSearch docs store q k).getD []) := by
  rw [List.forall_iff_forall_mem]
  intro r hr
  by_cases hone : store.length = 1
  · obtain ⟨x, hx⟩ := List.length_eq_one.mp hone
    rw [hx, irSearch_single_row] at hr
    simp at hr
  · rw [irSearch_eq docs store q k (le_of_eq hlen) hone, Option.getD_some] at hr
    obtain ⟨i, hi, rfl⟩ := List.mem_map.mp hr
    have hs := mem_topkIdx hi
    rw [scoresOf_length] at hs
    have hd : i < docs.length := hlen ▸ hs
    refine ⟨i, hd, hs, ?_, ?_, ?_⟩
    · simp [resultAt, List.get_eq_getElem, List.getElem?_eq_getElem hd]
    · simp [resultAt, List.get_eq_getElem, List.getElem?_eq_getElem hd]
    · simp [resultAt, scoresOf, List.get_eq_getElem, List.getElem?_eq_getElem hs]

theorem search_result_score_is_dot_witness :
    List.Forall
      (fun r => ∃ i, ∃ (hd : i < exDocsB.length) (he : i < exStoreB.length),
        r.text = (exDocsB.get ⟨i, hd⟩).text ∧
        r.metadata = (exDocsB.get ⟨i, hd⟩).metadata ∧
        r.score = dot exQueryB (exStoreB.get ⟨i, he⟩))
      ((irSearch exDocsB exStoreB exQueryB 2).getD []) :=
  search_result_score_is_dot exDocsB exStoreB exQueryB 2 rfl (by decide)

/-- C7 (counterexample): an oversized hard-cut chunk is returned as a plain
string, indistinguishable from a bounded chunk — `"abcde"` with
`chunk_size = 2` yields the same output as with `chunk_size = 5`. -/
theorem split_oversize_unflagged :
    split_text "abcde" 2 0 [" "] = ["abcde"] ∧ 2 < ("abcde" : String).length ∧
    split_text "abcde" 2 0 [" "] = split_text "abcde" 5 0 [" "] :=
  ⟨by decide, by decide, by decide⟩

/-- C7 (amended): every chunk produced by the splitter has length at most
`chunk_size` unless it is a hard-cut chunk (flag `true` in the flagged
model), and the sequence the caller receives is the flagged sequence with
the flags erased. -/
theorem split_chunk_bound (text : String) (cs co : Nat) (seps : List String)
    (hcs : 0 < cs) :
    (∀ p ∈ split_text_flagged text cs co seps, p.2 = false → p.1.length ≤ cs) ∧
    split_text text cs co seps = (split_text_flagged text cs co seps).map Prod.fst := by
  refine ⟨?_, rfl⟩
  rintro ⟨c, fl⟩ hp hfl
  cases hfl
  exact splitRec_bound cs co seps text c (List.mem_of_mem_filter hp)

theorem split_chunk_bound_witness :
    (∀ p ∈ split_text_flagged "A. B. C." 4 0 [". "], p.2 = false → p.1.length ≤ 4) ∧
    split_text "A. B. C." 4 0 [". "] =
      (split_text_flagged "A. B. C." 4 0 [". "]).map Prod.fst :=
  split_chunk_bound "A. B. C." 4 0 [". "] (by decide)

/-- C8 (counterexample): on the document `"A. B. C."` with `chunk_size = 4`,
`chunk_overlap = 0` and separators `[". "]`, the greedy packing algorithm
does not produce `["A.", "B.", "C."]`. -/
theorem split_scenario_counterexample :
    split_text "A. B. C." 4 0 [". "] ≠ ["A.", "B.", "C."] := by decide

/-- C8 (amended): on that input the greedy packing (pieces joined by the
separator, buffer emitted when the next piece would push it over
`chunk_size`) yields `["A. B", "C."]` — the first buffer packs `"A"` and
`"B"` into `"A. B"`, of length exactly `chunk_size = 4`. -/
theorem split_scenario_packed :
    split_text "A. B. C." 4 0 [". "] = ["A. B", "C."] := by decide

/-- C9: the citation URLs attached to an answer contain each source URL of
the retrieved chunks exactly once, ordered by first occurrence in the ranked
retrieval results. -/
theorem chat_citations_dedup_first_seen :
    ∀ (docs : List Doc) (store : List (List ℚ)) (q : List ℚ),
      (chatCitations docs store q).Nodup ∧
      (∀ u, u ∈ chatCitations docs store q ↔
        u ∈ ((irSearch docs store q 4).getD []).map (fun r => r.metadata.url)) ∧
      List.Pairwise
        (fun a b =>
          (((irSearch docs store q 4).getD []).map (fun r => r.metadata.url)).indexOf a <
            (((irSearch docs store q 4).getD []).map (fun r => r.metadata.url)).indexOf b)
        (chatCitations docs store q) := by
  intro docs store q
  exact ⟨dedupFirst_nodup _, fun u => mem_dedupFirst _ u, dedupFirst_pairwise_indexOf _⟩

/-- C10: the search selects positions by ranking the embedding-matrix rows
and indexes the documents list with them, so an embedding matrix with more
rows than documents can hit an out-of-range lookup (here: three cached rows
over two documents, `k = 3`, the n ≠ 1 vector path); nothing in the build
path checks the precondition, since a cached matrix is used as-is whenever
present; and away from the separate single-chunk squeeze defect, row count
at most the document count does guarantee an in-range result. -/
theorem search_requires_aligned_store :
    irSearch exDocsPair exStoreB exQueryB 3 = none ∧
    (∀ m computed : List (List ℚ), loadOrBuild (some m) computed = m) ∧
    (∀ (docs : List Doc) (store : List (List ℚ)) (q : List ℚ) (k : Int),
      store.length ≤ docs.length → store.length ≠ 1 →
        (irSearch docs store q k).isSome = true) := by
  refine ⟨?_, fun m computed => rfl, ?_⟩
  · simp only [irSearch, exScoresB]
    decide
  · intro docs store q k h hone
    rw [irSearch_eq docs store q k h hone]
    rfl

end Newtral
